import Mathlib

/-!
Verification development for the vectorized bulk-buffer transform kernels of
the Js-fast-library crate (`src/images.rs`, `src/math.rs`, `src/byte.rs`).

Shallow embedding conventions:
* A byte buffer `&[u8]` is a `List ℕ` whose elements are `< 256`; a u8 value
  is a `ℕ`, with wrapping arithmetic written out as `% 256` where the source
  uses a wrapping SIMD operation.
* An `f64` value is a dyadic number `m * 2 ^ e` (structure `FP` below) and the
  IEEE-754 binary64 operations are modelled as exact dyadic/rational
  arithmetic followed by correct rounding to 53 significant bits with
  round-to-nearest, ties-to-even.  The model keeps the exponent unbounded, so
  it is faithful to binary64 on the normal finite range (no overflow to
  infinity, no subnormal or signed-zero behaviour); every concrete value used
  in the theorems below lies well inside that range.
* The u32 accumulator of `count_zero_bits` is modelled with the wrapping
  (release-mode) semantics of Rust integer addition, i.e. `% 2 ^ 32` at every
  accumulation step.
* Loop index footprints (which buffer indices the vectorized main loop and
  the scalar remainder loop touch) are modelled as explicit lists of indices
  generated by transcribing the loop control of the source.
-/

/-! ### Byte kernel: `invert_colors` (src/images.rs lines 50-73) -/

/-- One SIMD lane of `u8x16_sub(u8x16_splat(255), vec)`: wrapping u8
subtraction `255 - b`, written with the explicit `% 256` of 8-bit wrapping
arithmetic. For `b < 256` this equals `255 - b`. -/
def invLane (b : ℕ) : ℕ := (255 + 256 - b) % 256

/-- Embedding of `invert_colors`: the `while i + 16 <= len` SIMD loop inverts
16 bytes at a time (first match arm, one lane operation per byte), and the
trailing `for j in i..len` scalar loop inverts the remaining bytes with the
non-wrapping `255 - *byte` (second arm). -/
def invert_colors : List ℕ → List ℕ
  | b0 :: b1 :: b2 :: b3 :: b4 :: b5 :: b6 :: b7 ::
    b8 :: b9 :: b10 :: b11 :: b12 :: b13 :: b14 :: b15 :: rest =>
      invLane b0 :: invLane b1 :: invLane b2 :: invLane b3 ::
      invLane b4 :: invLane b5 :: invLane b6 :: invLane b7 ::
      invLane b8 :: invLane b9 :: invLane b10 :: invLane b11 ::
      invLane b12 :: invLane b13 :: invLane b14 :: invLane b15 ::
      invert_colors rest
  | rest => rest.map (fun b => 255 - b)

/-! ### Byte kernels: `xor_bytes` and `count_zero_bits` (src/byte.rs) -/

/-- Embedding of `xor_bytes` (src/byte.rs line 87):
`data1.iter().zip(data2.iter()).map(|(&x1, &x2)| x1 ^ x2).collect()`. -/
def xor_bytes (data1 data2 : List ℕ) : List ℕ :=
  (data1.zip data2).map (fun p => p.1 ^^^ p.2)

/-- Model of `u8::count_zeros`: the number of zero bits among the 8 bits of a
byte. -/
def countZeros8 (b : ℕ) : ℕ := (List.range 8).countP (fun k => !(Nat.testBit b k))

/-- The standard per-byte population count (`count_one_bits` of the spec,
`u8::count_ones`): number of one bits among the 8 bits of a byte. -/
def popCount8 (b : ℕ) : ℕ := (List.range 8).countP (fun k => Nat.testBit b k)

/-- Embedding of `count_zero_bits` (src/byte.rs line 43):
`data.iter().map(|&byte| byte.count_zeros()).sum()` with a u32 accumulator.
Each accumulation step wraps modulo `2 ^ 32` (release-mode Rust `+` on u32). -/
def count_zero_bits (data : List ℕ) : ℕ :=
  data.foldl (fun acc b => (acc + countZeros8 b) % 2 ^ 32) 0

/-- The exact (unbounded) total number of zero bits of a buffer, used to state
what the u32 result of `count_zero_bits` would have to hold. -/
def exactZeroBits (data : List ℕ) : ℕ := (data.map countZeros8).sum

/-! ### Loop index footprint of the two-region (SIMD main + scalar remainder)
loop shape shared by `invert_colors` and `calculate_mean`.

`simdLoopAux fuel w len i` transcribes `while i + w <= len { ...; i += w }`
starting from index `i`: it returns the list of base indices the loop body
runs at, together with the final value of `i` (where the remainder loop
`for j in i..len` starts).  The fuel argument only makes the recursion
structural; `len + 1` steps always suffice. -/

def simdLoopAux : ℕ → ℕ → ℕ → ℕ → List ℕ × ℕ
  | 0, _, _, i => ([], i)
  | fuel + 1, w, len, i =>
    if i + w ≤ len ∧ 0 < w then
      let p := simdLoopAux fuel w len (i + w)
      (i :: p.1, p.2)
    else ([], i)

/-- The base indices visited by the `w`-wide main loop on a buffer of length
`len`, and the index at which the scalar remainder loop starts. -/
def simdLoop (w len : ℕ) : List ℕ × ℕ := simdLoopAux (len + 1) w len 0

/-- Every buffer index loaded or stored by the two regions, in program order:
each main-loop iteration at base `b` touches `b, b+1, ..., b+w-1` (the `w`
lanes of its vector load/store), then the remainder loop touches
`finalI, ..., len-1` one element at a time. -/
def accessedIndices (w len : ℕ) : List ℕ :=
  (simdLoop w len).1.flatMap (fun base => (List.range w).map (fun j => base + j)) ++
    List.range' (simdLoop w len).2 (len - (simdLoop w len).2)

/-- Indices touched by `invert_colors` on a buffer of length `len`: the
16-wide SIMD loop plus the scalar remainder loop (src/images.rs lines 56-72). -/
def invertAccessedIndices (len : ℕ) : List ℕ := accessedIndices 16 len

/-- Indices touched by `calculate_mean` on a buffer of length `len`: the
2-wide SIMD loop plus the scalar remainder loop (src/math.rs lines 30-44). -/
def meanAccessedIndices (len : ℕ) : List ℕ := accessedIndices 2 len

/-! ### Model of IEEE-754 binary64 arithmetic -/

/-- Number of binary digits of `n` (`0` for `n = 0`): the unique `b` with
`2 ^ (b - 1) ≤ n < 2 ^ b` for `n > 0`.  Structural recursion on a fuel
argument so that the kernel can evaluate it; `bitlenAux fuel n` is correct
whenever `n ≤ fuel`. -/
def bitlenAux : ℕ → ℕ → ℕ
  | 0, _ => 0
  | _ + 1, 0 => 0
  | fuel + 1, n + 1 => bitlenAux fuel ((n + 1) / 2) + 1

/-- Binary length of a natural number (`n` itself is always enough fuel). -/
def bitlen (n : ℕ) : ℕ := bitlenAux n n

/-- Odd part of a positive natural number: `oddPartAux fuel n = (o, k)` with
`n = o * 2 ^ k` and `o` odd, whenever `0 < n ≤ fuel`. -/
def oddPartAux : ℕ → ℕ → ℕ × ℕ
  | 0, n => (n, 0)
  | fuel + 1, n =>
    if n % 2 = 0 ∧ n ≠ 0 then
      let p := oddPartAux fuel (n / 2)
      (p.1, p.2 + 1)
    else (n, 0)

/-- Reapply the sign of `m` to the magnitude `n`. -/
def isign (m : ℤ) (n : ℕ) : ℤ := if m < 0 then -(n : ℤ) else (n : ℤ)

/-- A dyadic value `m * 2 ^ e`.  In canonical form (as produced by `FP.norm`)
the mantissa `m` is odd, or `m = 0 ∧ e = 0`; a finite binary64 value has a
unique canonical form, so equality of canonical forms is exactly bit-identity
of the floats they model (ignoring the sign of zero). -/
structure FP where
  m : ℤ
  e : ℤ
deriving DecidableEq, Repr

/-- The floating-point value `+0.0`. -/
def fpzero : FP := ⟨0, 0⟩

/-- Canonical form of the dyadic `m * 2 ^ e`: strip the factors of two out of
the mantissa into the exponent. -/
def FP.norm (m e : ℤ) : FP :=
  if m = 0 then fpzero
  else
    let p := oddPartAux m.natAbs m.natAbs
    ⟨isign m p.1, e + p.2⟩

/-- Round the natural `a` at the scale `2 ^ s` to the nearest multiple, ties
to even: returns the rounded mantissa `a / 2 ^ s` adjusted by the rounding
rule of IEEE-754 round-to-nearest-even. -/
def rnshift (a s : ℕ) : ℕ :=
  let q := a / 2 ^ s
  let r := a % 2 ^ s
  let half := 2 ^ (s - 1)
  if r < half then q
  else if half < r then q + 1
  else if q % 2 = 0 then q else q + 1

/-- Correctly round a dyadic value to 53 significant bits (round to nearest,
ties to even), the rounding IEEE-754 binary64 applies to every exact result.
A mantissa of at most 53 bits is representable and left unchanged. -/
def round53 (x : FP) : FP :=
  if x.m = 0 then fpzero
  else
    let a := x.m.natAbs
    let b := bitlen a
    if b ≤ 53 then FP.norm x.m x.e
    else
      let s := b - 53
      FP.norm (isign x.m (rnshift a s)) (x.e + s)

/-- Exact sum of two dyadic values (before rounding): align both mantissas to
the smaller exponent. -/
def exactAdd (x y : FP) : FP :=
  let e := min x.e y.e
  ⟨x.m * 2 ^ (x.e - e).toNat + y.m * 2 ^ (y.e - e).toNat, e⟩

/-- Binary64 addition: correct rounding of the exact sum. -/
def fadd (x y : FP) : FP := round53 (exactAdd x y)

/-- Binary64 division: correct rounding of the exact quotient
`(x.m / y.m) * 2 ^ (x.e - y.e)`.  The rounded mantissa is computed from the
integer quotient and remainder of `x.m.natAbs / y.m.natAbs` after scaling the
numerator (or the denominator) so that the quotient has exactly 53 bits;
`fl` is the floor of the base-2 logarithm of `|x.m / y.m|` and `g = fl - 52`
is the exponent of one unit in the last place of the result.  Division by
zero returns `fpzero` as a junk value (the embedding is never applied to a
zero divisor: `calculate_mean` divides only by a positive length). -/
def fdiv (x y : FP) : FP :=
  if x.m = 0 ∨ y.m = 0 then fpzero
  else
    let a := x.m.natAbs
    let c := y.m.natAbs
    let la := bitlen a
    let lc := bitlen c
    let fl : ℤ := if c * 2 ^ la ≤ a * 2 ^ lc then (la : ℤ) - lc else (la : ℤ) - lc - 1
    let g : ℤ := fl - 52
    let N := if 0 ≤ g then a else a * 2 ^ (-g).toNat
    let D := if 0 ≤ g then c * 2 ^ g.toNat else c
    let q := N / D
    let r := N % D
    let rr :=
      if 2 * r < D then q
      else if D < 2 * r then q + 1
      else if q % 2 = 0 then q else q + 1
    FP.norm (isign (x.m * y.m) rr) (x.e - y.e + g)

/-! ### Float kernel: `calculate_mean` (src/math.rs lines 20-48) -/

/-- The `while i + 2 <= len` SIMD loop of `calculate_mean`: each iteration
extracts the two lanes `x, y`, forms `partial = x + y` (one rounded f64
addition), and accumulates `sum += partial` (a second rounded addition).  The
returned pair is the accumulated sum and the unconsumed remainder of the
buffer (the elements from the final value of `i` on). -/
def meanMain : List FP → FP → FP × List FP
  | x :: y :: rest, sum => meanMain rest (fadd sum (fadd x y))
  | rest, sum => (sum, rest)

/-- Embedding of `calculate_mean`: early return `0.0` for the empty buffer;
otherwise the 2-wide main loop, then the scalar remainder loop
`for j in i..len { sum += data[j] }`, then `sum / len as f64` (`len < 2 ^ 32`
on the wasm32 target, so `len as f64` is the exact integer `len`). -/
def calculate_mean (data : List FP) : FP :=
  if data.length = 0 then fpzero
  else
    let p := meanMain data fpzero
    let s := p.2.foldl fadd p.1
    fdiv s (FP.norm (data.length : ℤ) 0)

/-- Specification-side reference (spec §4.4, §8 "pure scalar left-to-right
summation"): accumulate every element one at a time, left to right, with one
rounded f64 addition per element, then divide by the length. -/
def scalar_mean (data : List FP) : FP :=
  if data.length = 0 then fpzero
  else fdiv (data.foldl fadd fpzero) (FP.norm (data.length : ℤ) 0)

/-- The buffer with each aligned pair replaced by its (rounded) f64 sum and a
trailing odd element kept as is: the sequence whose plain left-to-right
summation `calculate_mean` actually computes. -/
def chunkPairSums : List FP → List FP
  | x :: y :: rest => fadd x y :: chunkPairSums rest
  | rest => rest

/-- The four-element f64 buffer `[2^53, 0.0, 1.0, 1.0]` on which the pairwise
accumulation of `calculate_mean` and a pure scalar left-to-right summation
round differently. -/
def meanCexData : List FP := [⟨1, 53⟩, ⟨0, 0⟩, ⟨1, 0⟩, ⟨1, 0⟩]

/-! ### Helper lemmas: loop index coverage -/

/-- Starting the `w`-wide main loop at index `i` and following it with the
remainder region yields exactly the indices `i, i+1, ..., len-1`, in order,
provided the fuel is large enough for the loop to run to completion. -/
theorem simdLoopAux_coverage :
    ∀ (fuel w len i : ℕ), 0 < w → len < i + fuel * w →
      (simdLoopAux fuel w len i).1.flatMap
          (fun base => (List.range w).map (fun j => base + j)) ++
        List.range' (simdLoopAux fuel w len i).2 (len - (simdLoopAux fuel w len i).2) =
      List.range' i (len - i) := by
  intro fuel
  induction fuel with
  | zero => intro w len i hw h; simp [simdLoopAux]
  | succ fuel ih =>
    intro w len i hw h
    by_cases hc : i + w ≤ len
    · have hrec : len < (i + w) + fuel * w := by
        have : (fuel + 1) * w = fuel * w + w := by ring
        omega
      have ihr := ih w len (i + w) hw hrec
      simp only [simdLoopAux, if_pos (And.intro hc hw), List.flatMap_cons,
        List.append_assoc]
      rw [ihr]
      have h1 : (List.range w).map (fun j => i + j) = List.range' i w :=
        (List.range'_eq_map_range i w).symm
      rw [h1]
      have h2 := List.range'_append i w (len - (i + w)) 1
      simp only [one_mul] at h2
      rw [h2]
      congr 1
      omega
    · simp [simdLoopAux, hc]

/-- The union of the `w`-wide main region and the scalar remainder of a
length-`len` buffer visits exactly the indices `0, 1, ..., len-1`, each once,
in order. -/
theorem accessed_eq_range (w len : ℕ) (hw : 0 < w) :
    accessedIndices w len = List.range len := by
  have h : len < 0 + (len + 1) * w := by
    have : len + 1 ≤ (len + 1) * w := Nat.le_mul_of_pos_right _ hw
    omega
  have := simdLoopAux_coverage (len + 1) w len 0 hw h
  simpa [accessedIndices, simdLoop, List.range_eq_range'] using this

/-! ### Helper lemmas: `invert_colors` -/

/-- The wrapping SIMD lane operation agrees with `255 - b` on byte values. -/
theorem invLane_eq {b : ℕ} (h : b < 256) : invLane b = 255 - b := by
  unfold invLane; omega

/-- On buffers of byte values, `invert_colors` maps every byte `b` to
`255 - b`, whichever region processes it. -/
theorem invert_colors_eq_map :
    ∀ l : List ℕ, (∀ b ∈ l, b < 256) → invert_colors l = l.map (fun b => 255 - b) := by
  intro l
  induction l using invert_colors.induct with
  | case1 b0 b1 b2 b3 b4 b5 b6 b7 b8 b9 b10 b11 b12 b13 b14 b15 rest ih =>
    intro hb
    simp only [List.forall_mem_cons] at hb
    obtain ⟨h0, h1, h2, h3, h4, h5, h6, h7, h8, h9, h10, h11, h12, h13, h14, h15, hrest⟩ := hb
    simp only [invert_colors, ih hrest, List.map_cons]
    rw [invLane_eq h0, invLane_eq h1, invLane_eq h2, invLane_eq h3,
      invLane_eq h4, invLane_eq h5, invLane_eq h6, invLane_eq h7,
      invLane_eq h8, invLane_eq h9, invLane_eq h10, invLane_eq h11,
      invLane_eq h12, invLane_eq h13, invLane_eq h14, invLane_eq h15]
  | case2 rest h =>
    intro _
    rw [invert_colors]
    exact h

/-- `invert_colors` preserves the number of elements, for every buffer (no
byte-range hypothesis needed: both regions rewrite elements one for one). -/
theorem invert_colors_length : ∀ l : List ℕ, (invert_colors l).length = l.length := by
  intro l
  induction l using invert_colors.induct with
  | case1 b0 b1 b2 b3 b4 b5 b6 b7 b8 b9 b10 b11 b12 b13 b14 b15 rest ih =>
    simp [invert_colors, ih]
  | case2 rest h =>
    rw [invert_colors]
    · simp
    · exact h

/-! ### Helper lemmas: bit counting -/

/-- Each byte has 8 bits: its zero-bit count and one-bit count add up to 8. -/
theorem countZeros8_add_popCount8 (b : ℕ) : countZeros8 b + popCount8 b = 8 := by
  have h := List.length_eq_countP_add_countP (fun k => Nat.testBit b k) (List.range 8)
  have hc : (List.countP (fun a => decide ¬(Nat.testBit b a = true)) (List.range 8)) =
      countZeros8 b := by
    unfold countZeros8
    congr 1
    funext a
    cases Nat.testBit b a <;> simp
  simp only [List.length_range] at h
  unfold popCount8
  omega

/-- The exact zero-bit total and the exact one-bit total of a buffer add up to
8 bits per byte. -/
theorem exactZeroBits_add (data : List ℕ) :
    exactZeroBits data + (data.map popCount8).sum = 8 * data.length := by
  induction data with
  | nil => simp [exactZeroBits]
  | cons b rest ih =>
    simp only [exactZeroBits, List.map_cons, List.sum_cons, List.length_cons] at ih ⊢
    have := countZeros8_add_popCount8 b
    omega

/-- A byte contributes at most 8 zero bits. -/
theorem countZeros8_le (b : ℕ) : countZeros8 b ≤ 8 := by
  have h := List.countP_le_length (l := List.range 8) (p := fun k => !(Nat.testBit b k))
  simpa [countZeros8] using h

/-- The exact zero-bit total of a buffer is at most 8 bits per byte. -/
theorem exactZeroBits_le (data : List ℕ) : exactZeroBits data ≤ 8 * data.length := by
  induction data with
  | nil => simp [exactZeroBits]
  | cons b rest ih =>
    simp only [exactZeroBits, List.map_cons, List.sum_cons, List.length_cons] at ih ⊢
    have := countZeros8_le b
    omega

/-- The wrapping u32 accumulation of `count_zero_bits` computes the exact
zero-bit total reduced modulo `2 ^ 32`. -/
theorem count_zero_bits_eq_mod (data : List ℕ) :
    count_zero_bits data = exactZeroBits data % 2 ^ 32 := by
  suffices h : ∀ (l : List ℕ) (acc : ℕ), acc < 2 ^ 32 →
      l.foldl (fun acc b => (acc + countZeros8 b) % 2 ^ 32) acc =
        (acc + exactZeroBits l) % 2 ^ 32 by
    simpa [count_zero_bits] using h data 0 (by omega)
  intro l
  induction l with
  | nil => intro acc hacc; simpa [exactZeroBits] using (Nat.mod_eq_of_lt hacc).symm
  | cons b rest ih =>
    intro acc hacc
    simp only [List.foldl_cons]
    rw [ih _ (Nat.mod_lt _ (by norm_num)), Nat.mod_add_mod]
    have hsplit : exactZeroBits (b :: rest) = countZeros8 b + exactZeroBits rest := by
      simp [exactZeroBits]
    rw [hsplit]
    congr 1
    omega

/-- The zero-bit count of the all-zero buffer of length `n`, as returned by
the u32 accumulator: `8 * n` wrapped modulo `2 ^ 32`. -/
theorem count_zero_bits_replicate (n : ℕ) :
    count_zero_bits (List.replicate n 0) = (8 * n) % 2 ^ 32 := by
  rw [count_zero_bits_eq_mod]
  congr 1
  induction n with
  | zero => simp [exactZeroBits]
  | succ k ih =>
    simp only [List.replicate_succ, exactZeroBits, List.map_cons, List.sum_cons] at ih ⊢
    rw [ih]
    have : countZeros8 0 = 8 := by decide
    omega

/-! ### Helper lemmas: binary length and odd part -/

/-- Zero has binary length zero whatever the fuel. -/
theorem bitlenAux_zero (fuel : ℕ) : bitlenAux fuel 0 = 0 := by
  cases fuel <;> rfl

/-- With enough fuel, `bitlenAux` computes the binary length: the unique `b`
with `2 ^ (b - 1) ≤ n < 2 ^ b`. -/
theorem bitlenAux_spec : ∀ n fuel : ℕ, n ≤ fuel → 0 < n →
    2 ^ (bitlenAux fuel n - 1) ≤ n ∧ n < 2 ^ (bitlenAux fuel n) := by
  intro n
  induction n using Nat.strong_induction_on with
  | _ n ih =>
    intro fuel hfuel hn
    obtain ⟨f, rfl⟩ : ∃ f, fuel = f + 1 := ⟨fuel - 1, by omega⟩
    obtain ⟨m, rfl⟩ : ∃ m, n = m + 1 := ⟨n - 1, by omega⟩
    rw [bitlenAux]
    by_cases hm : m = 0
    · subst hm
      norm_num [bitlenAux_zero]
    · have hhalf_pos : 0 < (m + 1) / 2 := by omega
      have hhalf_lt : (m + 1) / 2 < m + 1 := by omega
      have hhalf_le : (m + 1) / 2 ≤ f := by omega
      obtain ⟨h1, h2⟩ := ih _ hhalf_lt f hhalf_le hhalf_pos
      set B := bitlenAux f ((m + 1) / 2) with hB
      clear_value B
      have hBpos : 0 < B := by
        by_contra h
        push_neg at h
        have hB0 : B = 0 := by omega
        rw [hB0, pow_zero] at h2
        omega
      obtain ⟨B', rfl⟩ : ∃ B', B = B' + 1 := ⟨B - 1, by omega⟩
      simp only [Nat.add_sub_cancel] at h1 ⊢
      have hp1 : (2:ℕ) ^ (B' + 1) = 2 ^ B' * 2 := pow_succ 2 B'
      have hp2 : (2:ℕ) ^ (B' + 2) = 2 ^ (B' + 1) * 2 := pow_succ 2 (B' + 1)
      omega

/-- `bitlen n` is the binary length of `n`. -/
theorem bitlen_spec (n : ℕ) (hn : 0 < n) :
    2 ^ (bitlen n - 1) ≤ n ∧ n < 2 ^ (bitlen n) :=
  bitlenAux_spec n n le_rfl hn

/-- The binary length is determined by the sandwich `2 ^ (b-1) ≤ n < 2 ^ b`. -/
theorem bitlen_eq_of {n b : ℕ} (hb : 0 < b) (h1 : 2 ^ (b - 1) ≤ n) (h2 : n < 2 ^ b) :
    bitlen n = b := by
  have hn : 0 < n := lt_of_lt_of_le (pow_pos (by norm_num) _) h1
  obtain ⟨g1, g2⟩ := bitlen_spec n hn
  by_contra hne
  rcases Nat.lt_or_ge (bitlen n) b with h | h
  · have hmono : (2:ℕ) ^ (bitlen n) ≤ 2 ^ (b - 1) :=
      Nat.pow_le_pow_right (by norm_num) (by omega)
    omega
  · have hgt : b < bitlen n := by omega
    have hmono : (2:ℕ) ^ b ≤ 2 ^ (bitlen n - 1) :=
      Nat.pow_le_pow_right (by norm_num) (by omega)
    omega

/-- The binary length of `n` is positive for positive `n`. -/
theorem bitlen_pos {n : ℕ} (hn : 0 < n) : 0 < bitlen n := by
  obtain ⟨g1, g2⟩ := bitlen_spec n hn
  by_contra h
  push_neg at h
  have h0 : bitlen n = 0 := by omega
  rw [h0, pow_zero] at g2
  omega

/-- Multiplying by `2 ^ k` adds `k` to the binary length. -/
theorem bitlen_mul_pow2 {n : ℕ} (hn : 0 < n) (k : ℕ) :
    bitlen (n * 2 ^ k) = bitlen n + k := by
  obtain ⟨h1, h2⟩ := bitlen_spec n hn
  have hbpos := bitlen_pos hn
  apply bitlen_eq_of (by omega)
  · have he : bitlen n + k - 1 = (bitlen n - 1) + k := by omega
    rw [he, pow_add]
    exact Nat.mul_le_mul_right _ h1
  · rw [pow_add]
    exact Nat.mul_lt_mul_of_lt_of_le h2 le_rfl (pow_pos (by norm_num) k)

/-- With enough fuel, `oddPartAux` returns the odd part and the 2-adic
valuation: an odd `o` and `k` with `o * 2 ^ k = n`. -/
theorem oddPartAux_spec : ∀ n fuel : ℕ, n ≤ fuel → 0 < n →
    (oddPartAux fuel n).1 % 2 = 1 ∧
      (oddPartAux fuel n).1 * 2 ^ (oddPartAux fuel n).2 = n := by
  intro n
  induction n using Nat.strong_induction_on with
  | _ n ih =>
    intro fuel hfuel hn
    obtain ⟨f, rfl⟩ : ∃ f, fuel = f + 1 := ⟨fuel - 1, by omega⟩
    by_cases he : n % 2 = 0 ∧ n ≠ 0
    · simp only [oddPartAux, if_pos he]
      have hpos : 0 < n / 2 := by omega
      have hlt : n / 2 < n := by omega
      have hle : n / 2 ≤ f := by omega
      obtain ⟨o1, o2⟩ := ih _ hlt f hle hpos
      refine ⟨o1, ?_⟩
      rw [pow_succ, ← mul_assoc, o2]
      omega
    · simp only [oddPartAux, if_neg he]
      refine ⟨by omega, by simp⟩

/-- The odd-part decomposition of a positive natural number is unique. -/
theorem oddPart_unique : ∀ (k k' o o' : ℕ), o % 2 = 1 → o' % 2 = 1 →
    o * 2 ^ k = o' * 2 ^ k' → o = o' ∧ k = k' := by
  intro k
  induction k with
  | zero =>
    intro k' o o' ho ho' heq
    rw [pow_zero, mul_one] at heq
    cases k' with
    | zero => rw [pow_zero, mul_one] at heq; exact ⟨heq, rfl⟩
    | succ k'' =>
      exfalso
      rw [pow_succ, ← mul_assoc] at heq
      set t := o' * 2 ^ k'' with ht
      omega
  | succ k ih =>
    intro k' o o' ho ho' heq
    cases k' with
    | zero =>
      exfalso
      rw [pow_zero, mul_one, pow_succ, ← mul_assoc] at heq
      set t := o * 2 ^ k with ht
      omega
    | succ k'' =>
      rw [pow_succ, pow_succ, ← mul_assoc, ← mul_assoc] at heq
      have heq' : o * 2 ^ k = o' * 2 ^ k'' := by
        set a := o * 2 ^ k with ha
        set b := o' * 2 ^ k'' with hb
        omega
      obtain ⟨h1, h2⟩ := ih k'' o o' ho ho' heq'
      exact ⟨h1, by omega⟩

/-! ### Helper lemmas: signs and canonical forms -/

/-- Reapplying the sign of `m` to its own absolute value gives back `m`. -/
theorem isign_natAbs (m : ℤ) : isign m m.natAbs = m := by
  unfold isign
  split <;> omega

/-- The sign reapplication distributes over scaling the magnitude. -/
theorem isign_mul_pow (m : ℤ) (x t : ℕ) :
    isign m (x * 2 ^ t) = isign m x * 2 ^ t := by
  unfold isign
  split <;> push_cast <;> ring

/-- Scaling `m` by a power of two does not change its sign. -/
theorem isign_mul_pow_left (m : ℤ) (j x : ℕ) : isign (m * 2 ^ j) x = isign m x := by
  unfold isign
  have hp : (0:ℤ) < 2 ^ j := pow_pos (by norm_num) j
  have hiff : m * 2 ^ j < 0 ↔ m < 0 := by
    constructor
    · intro h
      by_contra hh
      push_neg at hh
      exact absurd (mul_nonneg hh hp.le) (not_le.mpr h)
    · intro h
      exact mul_neg_of_neg_of_pos h hp
  simp only [hiff]

/-- `FP.norm` is determined by any odd-part decomposition of the mantissa. -/
theorem norm_eq_of {m e : ℤ} {o k : ℕ} (hm : m ≠ 0) (ho : o % 2 = 1)
    (hok : o * 2 ^ k = m.natAbs) : FP.norm m e = ⟨isign m o, e + k⟩ := by
  have hpos : 0 < m.natAbs := Int.natAbs_pos.mpr hm
  obtain ⟨p1, p2⟩ := oddPartAux_spec m.natAbs m.natAbs le_rfl hpos
  obtain ⟨hoo, hkk⟩ := oddPart_unique _ k _ o p1 ho (p2.trans hok.symm)
  simp only [FP.norm, if_neg hm]
  rw [hoo, hkk]

/-- Canonicalisation absorbs powers of two moved between mantissa and
exponent. -/
theorem norm_shift (m e : ℤ) (j : ℕ) :
    FP.norm (m * 2 ^ j) (e - j) = FP.norm m e := by
  by_cases hm : m = 0
  · subst hm
    simp [FP.norm]
  · have hmj : m * 2 ^ j ≠ 0 := mul_ne_zero hm (pow_ne_zero _ two_ne_zero)
    have hpos : 0 < m.natAbs := Int.natAbs_pos.mpr hm
    obtain ⟨p1, p2⟩ := oddPartAux_spec m.natAbs m.natAbs le_rfl hpos
    have habs : (m * 2 ^ j).natAbs = m.natAbs * 2 ^ j := by
      rw [Int.natAbs_mul]
      congr 1
      simp [Int.natAbs_pow]
    have h1 : FP.norm (m * 2 ^ j) (e - j) =
        ⟨isign (m * 2 ^ j) (oddPartAux m.natAbs m.natAbs).1,
          (e - j) + ((oddPartAux m.natAbs m.natAbs).2 + j)⟩ := by
      apply norm_eq_of hmj p1
      rw [pow_add, ← mul_assoc, p2, habs]
    have h2 : FP.norm m e = ⟨isign m (oddPartAux m.natAbs m.natAbs).1,
        e + (oddPartAux m.natAbs m.natAbs).2⟩ := norm_eq_of hm p1 p2
    rw [h1, h2, isign_mul_pow_left]
    congr 1
    omega

/-! ### Helper lemmas: rounding -/

/-- Rounding at a scale shifted by `j` after scaling the argument by `2 ^ j`
gives the same rounded mantissa. -/
theorem rnshift_mul_pow (a s j : ℕ) (hs : 0 < s) :
    rnshift (a * 2 ^ j) (s + j) = rnshift a s := by
  unfold rnshift
  have hp : 0 < (2:ℕ) ^ j := pow_pos (by norm_num) j
  have h1 : a * 2 ^ j / 2 ^ (s + j) = a / 2 ^ s := by
    rw [pow_add, Nat.mul_div_mul_right _ _ hp]
  have h2 : a * 2 ^ j % 2 ^ (s + j) = (a % 2 ^ s) * 2 ^ j := by
    rw [pow_add, Nat.mul_mod_mul_right]
  have h3 : s + j - 1 = (s - 1) + j := by omega
  rw [h1, h2, h3, pow_add]
  have hlt1 : ((a % 2 ^ s) * 2 ^ j < 2 ^ (s - 1) * 2 ^ j) = (a % 2 ^ s < 2 ^ (s - 1)) := by
    rw [eq_iff_iff]
    exact Nat.mul_lt_mul_right hp
  have hlt2 : (2 ^ (s - 1) * 2 ^ j < (a % 2 ^ s) * 2 ^ j) = (2 ^ (s - 1) < a % 2 ^ s) := by
    rw [eq_iff_iff]
    exact Nat.mul_lt_mul_right hp
  simp only [hlt1, hlt2]

/-- Rounding to 53 bits is invariant under moving a power of two between the
mantissa and the exponent. -/
theorem round53_shift (m e : ℤ) (j : ℕ) :
    round53 ⟨m * 2 ^ j, e - j⟩ = round53 ⟨m, e⟩ := by
  by_cases hm : m = 0
  · subst hm
    norm_num [round53]
  · have hmj : m * 2 ^ j ≠ 0 := mul_ne_zero hm (pow_ne_zero _ two_ne_zero)
    have hpos : 0 < m.natAbs := Int.natAbs_pos.mpr hm
    have habs : (m * 2 ^ j).natAbs = m.natAbs * 2 ^ j := by
      rw [Int.natAbs_mul]
      congr 1
      simp [Int.natAbs_pow]
    have hbl : bitlen (m.natAbs * 2 ^ j) = bitlen m.natAbs + j := bitlen_mul_pow2 hpos j
    simp only [round53, hm, hmj, if_false, habs, hbl]
    by_cases hc1 : bitlen m.natAbs + j ≤ 53
    · have hc2 : bitlen m.natAbs ≤ 53 := by omega
      simp only [if_pos hc1, if_pos hc2]
      exact norm_shift m e j
    · by_cases hc2 : bitlen m.natAbs ≤ 53
      · simp only [if_neg hc1, if_pos hc2]
        set s := bitlen m.natAbs + j - 53 with hsdef
        have hs_le : s ≤ j := by omega
        have hs_pos : 0 < s := by omega
        have hr : rnshift (m.natAbs * 2 ^ j) s = m.natAbs * 2 ^ (j - s) := by
          unfold rnshift
          have hsplit : (2:ℕ) ^ j = 2 ^ (j - s) * 2 ^ s := by
            rw [← pow_add]
            congr 1
            omega
          have hq : m.natAbs * 2 ^ j / 2 ^ s = m.natAbs * 2 ^ (j - s) := by
            rw [hsplit, ← mul_assoc, Nat.mul_div_cancel _ (pow_pos (by norm_num) s)]
          have hmod : m.natAbs * 2 ^ j % 2 ^ s = 0 := by
            rw [hsplit, ← mul_assoc, Nat.mul_mod_left]
          rw [hq, hmod]
          have hhp : (0:ℕ) < 2 ^ (s - 1) := pow_pos (by norm_num) _
          rw [if_pos hhp]
        rw [hr, isign_mul_pow_left, isign_mul_pow, isign_natAbs]
        have hexp : e - (j:ℤ) + (s:ℤ) = e - ((j - s : ℕ) : ℤ) := by omega
        rw [hexp]
        exact norm_shift m e (j - s)
      · simp only [if_neg hc1, if_neg hc2]
        have hs_pos : 0 < bitlen m.natAbs - 53 := by omega
        have hss : bitlen m.natAbs + j - 53 = (bitlen m.natAbs - 53) + j := by omega
        rw [hss, rnshift_mul_pow _ _ _ hs_pos, isign_mul_pow_left]
        congr 1
        omega

/-- Adding a value to `0.0` just rounds the value (the exact sum is the value
itself). -/
theorem fadd_fpzero (x : FP) : fadd fpzero x = round53 x := by
  unfold fadd exactAdd fpzero
  simp only [zero_mul, zero_add]
  set k : ℕ := (x.e - min 0 x.e).toNat with hk
  have hek : min 0 x.e = x.e - (k : ℤ) := by omega
  rw [hek]
  exact round53_shift x.m x.e k

/-- The tie comparison of `rnshift` written with doubled remainders, the form
produced by the division kernel. -/
theorem rnshift_eq_halfcmp (a s : ℕ) (hs : 0 < s) :
    (if 2 * (a % 2 ^ s) < 2 ^ s then a / 2 ^ s
      else if 2 ^ s < 2 * (a % 2 ^ s) then a / 2 ^ s + 1
      else if (a / 2 ^ s) % 2 = 0 then a / 2 ^ s else a / 2 ^ s + 1) =
    rnshift a s := by
  unfold rnshift
  have h2 : (2:ℕ) ^ s = 2 * 2 ^ (s - 1) := by
    obtain ⟨s', rfl⟩ : ∃ s', s = s' + 1 := ⟨s - 1, by omega⟩
    simp only [Nat.add_sub_cancel, pow_succ]
    ring
  set r := a % 2 ^ s with hr
  set h1 := (2:ℕ) ^ (s - 1) with hh1
  have hc1 : (2 * r < 2 ^ s) = (r < h1) := by
    rw [eq_iff_iff, h2]
    omega
  have hc2 : (2 ^ s < 2 * r) = (h1 < r) := by
    rw [eq_iff_iff, h2]
    omega
  simp only [hc1, hc2]

/-- Dividing by the float `1.0` just rounds the dividend (the exact quotient
is the dividend itself). -/
theorem fdiv_one (x : FP) : fdiv x ⟨1, 0⟩ = round53 x := by
  by_cases hm : x.m = 0
  · simp [fdiv, round53, hm]
  · have hpos : 0 < x.m.natAbs := Int.natAbs_pos.mpr hm
    obtain ⟨g1, g2⟩ := bitlen_spec x.m.natAbs hpos
    have hblpos := bitlen_pos hpos
    have hbl1 : bitlen (1:ℕ) = 1 := rfl
    have hor : (x.m = 0 ∨ (⟨1, 0⟩ : FP).m = 0) = False := by
      simp [hm]
    simp only [fdiv, hor, if_false, Int.natAbs_one, hbl1, Nat.cast_one, pow_one]
    set la := bitlen x.m.natAbs with hla
    have hsp : (2:ℕ) ^ la = 2 * 2 ^ (la - 1) := by
      obtain ⟨l', hl'⟩ : ∃ l', la = l' + 1 := ⟨la - 1, by omega⟩
      rw [hl']
      simp only [Nat.add_sub_cancel, pow_succ]
      ring
    have hcond2 : (2:ℕ) ^ la ≤ x.m.natAbs * 2 := by omega
    simp only [one_mul, mul_one, Int.sub_zero]
    simp only [if_pos hcond2]
    by_cases hle : la ≤ 52
    · have hgneg : ¬ (0:ℤ) ≤ (la:ℤ) - 1 - 52 := by omega
      simp only [if_neg hgneg]
      have htn : ((-((la:ℤ) - 1 - 52)).toNat) = 53 - la := by omega
      simp only [htn, Nat.div_one, Nat.mod_one, mul_zero, zero_lt_one, if_true]
      rw [isign_mul_pow, isign_natAbs]
      have hexp : x.e + ((la:ℤ) - 1 - 52) = x.e - ((53 - la : ℕ) : ℤ) := by omega
      rw [hexp, norm_shift]
      simp only [round53, hm, if_false]
      rw [if_pos (by omega : bitlen x.m.natAbs ≤ 53)]
    · have hgnn : (0:ℤ) ≤ (la:ℤ) - 1 - 52 := by omega
      simp only [if_pos hgnn]
      have htn : (((la:ℤ) - 1 - 52).toNat) = la - 53 := by omega
      simp only [htn]
      by_cases h53 : la = 53
      · have hz : la - 53 = 0 := by omega
        simp only [hz, pow_zero, Nat.div_one, Nat.mod_one, mul_zero, zero_lt_one, if_true]
        rw [isign_natAbs]
        have hexp : x.e + ((la:ℤ) - 1 - 52) = x.e := by omega
        rw [hexp]
        simp only [round53, hm, if_false]
        rw [if_pos (by omega : bitlen x.m.natAbs ≤ 53)]
      · have hs_pos : 0 < la - 53 := by omega
        rw [rnshift_eq_halfcmp _ _ hs_pos]
        simp only [round53, hm, if_false]
        rw [if_neg (by omega : ¬ bitlen x.m.natAbs ≤ 53)]
        congr 1
        omega

/-- The accumulated main-loop sum followed by the remainder fold computes the
left-to-right fold over the pairwise-combined buffer. -/
theorem meanMain_foldl : ∀ (l : List FP) (s : FP),
    (meanMain l s).2.foldl fadd (meanMain l s).1 =
      List.foldl fadd s (chunkPairSums l) := by
  intro l s
  induction l, s using meanMain.induct with
  | case1 x y rest sum ih =>
    rw [meanMain, chunkPairSums, List.foldl_cons]
    exact ih
  | case2 rest sum h =>
    rw [meanMain, chunkPairSums]
    · exact h
    · exact h

/-- The exact zero-bit total of the all-zero buffer of length `n`. -/
theorem exactZeroBits_replicate (n : ℕ) :
    exactZeroBits (List.replicate n 0) = 8 * n := by
  induction n with
  | zero => simp [exactZeroBits]
  | succ k ih =>
    simp only [List.replicate_succ, exactZeroBits, List.map_cons, List.sum_cons] at ih ⊢
    rw [ih]
    have : countZeros8 0 = 8 := by decide
    omega

/-! ### Claim theorems -/

/-- C1: for every buffer length, the indices loaded or stored by the 16-wide
vectorized loop plus the scalar remainder of `invert_colors`, and by the
2-wide loop plus remainder of `calculate_mean`, are exactly `0, …, len-1` in
order — so every index `0 ≤ i < len` is processed exactly once and no access
ever touches an index `≥ len`. -/
theorem region_partition_exact (len : ℕ) :
    invertAccessedIndices len = List.range len ∧
      meanAccessedIndices len = List.range len :=
  ⟨accessed_eq_range 16 len (by norm_num), accessed_eq_range 2 len (by norm_num)⟩

/-- C2 counterexample: on the f64 buffer `[2^53, 0.0, 1.0, 1.0]` the result of
`calculate_mean` (which rounds each aligned pair sum before accumulating) is
not bit-identical to the pure scalar left-to-right summation of the same
buffer: the former yields `(2^53 + 2) / 4 = 2^51 + 0.5`, the latter
`2^53 / 4 = 2^51`. -/
theorem calculate_mean_not_scalar_order :
    calculate_mean meanCexData ≠ scalar_mean meanCexData := by decide

/-- C2 amended: `calculate_mean` consumes the buffer left to right with the
main region before the remainder, but each aligned pair is first combined by
one rounded addition and the pair sum is then added to the accumulator, so
the result is bit-identical to the left-to-right scalar summation of the
pairwise-combined buffer (not of the original buffer). -/
theorem calculate_mean_pairwise_order (data : List FP) :
    calculate_mean data =
      if data.length = 0 then fpzero
      else fdiv (List.foldl fadd fpzero (chunkPairSums data))
        (FP.norm (data.length : ℤ) 0) := by
  unfold calculate_mean
  by_cases h : data.length = 0
  · simp [h]
  · simp only [if_neg h]
    rw [meanMain_foldl]

/-- C3: on a buffer of byte values, every index `i < len` of the buffer
produced by `invert_colors` holds `255` minus the original byte at `i`,
whether `i` lies in the 16-wide vectorized region or in the scalar
remainder. -/
theorem invert_colors_pointwise (l : List ℕ) (i : ℕ) (hb : ∀ b ∈ l, b < 256)
    (h : i < l.length) : (invert_colors l)[i]? = some (255 - l[i]) := by
  rw [invert_colors_eq_map l hb, List.getElem?_map, List.getElem?_eq_getElem h]
  rfl

/-- C3 witness: a length-17 buffer exercising both the SIMD region and the
remainder. -/
theorem invert_colors_pointwise_w :
    (invert_colors (List.range 17))[16]? = some (255 - (List.range 17)[16]) :=
  invert_colors_pointwise (List.range 17) 16 (by decide) (by decide)

/-- C4: on a buffer of byte values, applying `invert_colors` twice restores
the original buffer. -/
theorem invert_colors_involutive (l : List ℕ) (hb : ∀ b ∈ l, b < 256) :
    invert_colors (invert_colors l) = l := by
  rw [invert_colors_eq_map l hb]
  have hb2 : ∀ b ∈ l.map (fun b => 255 - b), b < 256 := by
    intro b hbm
    simp only [List.mem_map] at hbm
    obtain ⟨a, ha, rfl⟩ := hbm
    omega
  rw [invert_colors_eq_map _ hb2, List.map_map]
  conv_rhs => rw [← List.map_id l]
  apply List.map_congr_left
  intro a ha
  have := hb a ha
  simp only [Function.comp_apply, id_eq]
  omega

/-- C4 witness: double inversion of a concrete 20-byte buffer. -/
theorem invert_colors_involutive_w :
    invert_colors (invert_colors (List.range 20)) = List.range 20 :=
  invert_colors_involutive (List.range 20) (by decide)

/-- C5: `calculate_mean` returns `0.0` on the empty buffer, returns `x` on
the one-element buffer `[x]` for every representable binary64 value `x`, and
returns `2.5` on `[1.0, 2.0, 3.0, 4.0]` (the values written as canonical
mantissa/exponent pairs). -/
theorem calculate_mean_values :
    calculate_mean [] = fpzero ∧
      (∀ x : FP, round53 x = x → calculate_mean [x] = x) ∧
      calculate_mean [⟨1, 0⟩, ⟨1, 1⟩, ⟨3, 0⟩, ⟨1, 2⟩] = ⟨5, -1⟩ := by
  refine ⟨by decide, ?_, by decide⟩
  intro x hx
  have hmm : meanMain [x] fpzero = (fpzero, [x]) := by
    rw [meanMain]
    intro a b rest h
    simp at h
  have hnorm : FP.norm 1 0 = ⟨1, 0⟩ := by decide
  unfold calculate_mean
  rw [if_neg (by simp : ¬ (([x] : List FP).length = 0))]
  simp only [hmm, List.foldl_cons, List.foldl_nil, List.length_cons,
    List.length_nil, Nat.cast_one, Nat.zero_add]
  rw [fadd_fpzero, hx, hnorm, fdiv_one, hx]

/-- C5 witness: the one-element case at the representable value `3.0`. -/
theorem calculate_mean_values_w :
    round53 ⟨3, 0⟩ = ⟨3, 0⟩ ∧ calculate_mean [⟨3, 0⟩] = ⟨3, 0⟩ :=
  ⟨by decide, calculate_mean_values.2.1 ⟨3, 0⟩ (by decide)⟩

/-- C6: `xor_bytes` returns a buffer of length `min len1 len2`, whose byte at
every common index `i` is the bitwise exclusive-or of the two input bytes;
bytes of the longer input beyond that length are silently ignored (the
output simply ends there — no error value exists). -/
theorem xor_bytes_spec (data1 data2 : List ℕ) :
    (xor_bytes data1 data2).length = min data1.length data2.length ∧
      ∀ (i : ℕ) (h1 : i < data1.length) (h2 : i < data2.length),
        (xor_bytes data1 data2)[i]? = some (data1[i] ^^^ data2[i]) := by
  constructor
  · simp [xor_bytes]
  · intro i h1 h2
    have hz : i < (data1.zip data2).length := by
      rw [List.length_zip]
      omega
    unfold xor_bytes
    rw [List.getElem?_map, List.getElem?_eq_getElem hz, List.getElem_zip]
    rfl

/-- C6 witness: inputs of lengths 3 and 5 give output length 3, and the byte
at index 2 is the exclusive-or of the corresponding input bytes. -/
theorem xor_bytes_spec_w :
    (xor_bytes [1, 2, 3] [5, 6, 7, 8, 9]).length = min 3 5 ∧
      (xor_bytes [1, 2, 3] [5, 6, 7, 8, 9])[2]? = some (3 ^^^ 7) := by
  have h := xor_bytes_spec [1, 2, 3] [5, 6, 7, 8, 9]
  exact ⟨h.1, h.2 2 (by decide) (by decide)⟩

/-- C7: for equal-length byte buffers, XOR-ing with the same buffer twice
restores the original, and XOR-ing a buffer with itself yields the all-zero
buffer of the same length. -/
theorem xor_bytes_cancel (a b : List ℕ) (hlen : a.length = b.length) :
    xor_bytes (xor_bytes a b) b = a ∧
      xor_bytes a a = List.replicate a.length 0 := by
  constructor
  · induction a generalizing b with
    | nil => simp [xor_bytes]
    | cons x rest ih =>
      cases b with
      | nil => simp at hlen
      | cons y brest =>
        have hrec := ih brest (by simpa using hlen)
        simp only [xor_bytes, List.zip_cons_cons, List.map_cons]
        rw [Nat.xor_cancel_right]
        simp only [xor_bytes] at hrec
        rw [hrec]
  · clear hlen
    induction a with
    | nil => simp [xor_bytes]
    | cons x rest ih =>
      simp only [xor_bytes, List.zip_cons_cons, List.map_cons, List.length_cons,
        List.replicate_succ]
      rw [Nat.xor_self]
      simp only [xor_bytes] at ih
      rw [ih]

/-- C7 witness: concrete equal-length buffers. -/
theorem xor_bytes_cancel_w :
    xor_bytes (xor_bytes [7, 200, 31] [13, 99, 255]) [13, 99, 255] = [7, 200, 31] ∧
      xor_bytes [7, 200, 31] [7, 200, 31] = List.replicate 3 0 :=
  xor_bytes_cancel [7, 200, 31] [13, 99, 255] (by decide)

/-- C8 counterexample: the u32 accumulator of `count_zero_bits` wraps on the
all-zero buffer of length `2 ^ 29` (an allowed input on the 4-GiB wasm32
address space): the returned count is `2 ^ 32 % 2 ^ 32 = 0`, so the identity
`count_zero_bits b + count_one_bits b = 8 * len b` fails there. -/
theorem count_zero_bits_identity_cex :
    ¬ (count_zero_bits (List.replicate (2 ^ 29) 0) +
        ((List.replicate (2 ^ 29) 0).map popCount8).sum =
        8 * (List.replicate (2 ^ 29) 0).length) := by
  have h1 : count_zero_bits (List.replicate (2 ^ 29) 0) = 0 := by
    rw [count_zero_bits_replicate]
    norm_num
  have h2 : ((List.replicate (2 ^ 29) 0).map popCount8).sum = 0 := by
    rw [List.map_replicate]
    have hp : popCount8 0 = 0 := by decide
    rw [hp, List.sum_replicate, smul_zero]
  have h3 : (List.replicate (2 ^ 29) 0).length = 2 ^ 29 := by
    rw [List.length_replicate]
  intro h
  rw [h1, h2, h3] at h
  omega

/-- C8 amended: whenever `8 * len` fits in the u32 result type (in particular
for every buffer shorter than `2 ^ 29` bytes), the zero-bit count plus the
standard population count of all bytes equals `8 * len`; and the two concrete
examples of the specification hold:
`count_zero_bits [0b11001100, 0b10101010, 0b11110000] = 12` and
`count_zero_bits [] = 0`. -/
theorem count_zero_bits_add_popcount :
    (∀ data : List ℕ, 8 * data.length < 2 ^ 32 →
        count_zero_bits data + (data.map popCount8).sum = 8 * data.length) ∧
      count_zero_bits [0b11001100, 0b10101010, 0b11110000] = 12 ∧
      count_zero_bits [] = 0 := by
  refine ⟨?_, by decide, by decide⟩
  intro data hlen
  have h1 := exactZeroBits_add data
  have h2 := exactZeroBits_le data
  have h3 := count_zero_bits_eq_mod data
  rw [h3, Nat.mod_eq_of_lt (by omega)]
  omega

/-- C8 witness: the identity at a concrete two-byte buffer. -/
theorem count_zero_bits_add_popcount_w :
    count_zero_bits [240, 15] + ([240, 15].map popCount8).sum = 8 * [240, 15].length :=
  count_zero_bits_add_popcount.1 [240, 15] (by decide)

/-- C9 counterexample: the u32 returned by `count_zero_bits` is not wide
enough for every buffer in the documented domain (any length, and wasm32
allows byte buffers up to 4 GiB): on the all-zero buffer of length `2 ^ 29`
the exact count is `8 * 2 ^ 29 = 2 ^ 32`, which overflows u32, so the
returned (wrapped) count differs from the exact count. -/
theorem count_zero_bits_overflow_cex :
    count_zero_bits (List.replicate (2 ^ 29) 0) ≠
      exactZeroBits (List.replicate (2 ^ 29) 0) := by
  rw [count_zero_bits_replicate, exactZeroBits_replicate]
  decide

/-- C9 amended: the u32 result is wide enough exactly when `8 * len` fits:
for every buffer of length at most `2 ^ 29 - 1` the accumulator cannot wrap,
the returned count equals the exact zero-bit count, and that count is bounded
by `8 * len < 2 ^ 32`. -/
theorem count_zero_bits_no_overflow_small (data : List ℕ)
    (hlen : data.length < 2 ^ 29) :
    count_zero_bits data = exactZeroBits data ∧ exactZeroBits data < 2 ^ 32 := by
  have h2 := exactZeroBits_le data
  have hfit : exactZeroBits data < 2 ^ 32 := by omega
  exact ⟨by rw [count_zero_bits_eq_mod, Nat.mod_eq_of_lt hfit], hfit⟩

/-- C9 witness: no overflow on a concrete three-byte buffer. -/
theorem count_zero_bits_no_overflow_small_w :
    count_zero_bits [1, 2, 3] = exactZeroBits [1, 2, 3] ∧
      exactZeroBits [1, 2, 3] < 2 ^ 32 :=
  count_zero_bits_no_overflow_small [1, 2, 3] (by decide)

/-- C10: `invert_colors` preserves the buffer's length — the output has
exactly as many elements as the input, for every buffer — and every index its
two loop regions load or store lies inside the buffer, so no data outside the
buffer is touched. -/
theorem invert_colors_frame (l : List ℕ) :
    (invert_colors l).length = l.length ∧
      ∀ i ∈ invertAccessedIndices l.length, i < l.length := by
  refine ⟨invert_colors_length l, ?_⟩
  intro i hi
  rw [invertAccessedIndices, accessed_eq_range 16 _ (by norm_num)] at hi
  exact List.mem_range.mp hi

/-- C10 witness: a concrete three-byte buffer; index 2 is accessed and lies
inside the buffer. -/
theorem invert_colors_frame_w :
    (invert_colors [10, 20, 30]).length = [10, 20, 30].length ∧ 2 < 3 :=
  ⟨(invert_colors_frame [10, 20, 30]).1,
    (invert_colors_frame [10, 20, 30]).2 2 (by decide)⟩
